import Mathlib

/-!
Verification of the BST visualizer core: the binary-search-tree engine
(`src/utils/bst.js`) and the animation-frame generators (`src/App.tsx`).
Tree values are JS numbers used only through comparison; we model them as `Int`.
-/

namespace BstViz

/-- Binary tree of integer values, mirroring `BSTNode` (value, left, right);
the visualization coordinates stored on nodes are not part of the engine's logic. -/
inductive Tree where
  | leaf : Tree
  | node : Tree → Int → Tree → Tree
deriving DecidableEq, Repr

/-- `t.all p` holds when every value in `t` satisfies `p`. -/
def Tree.all (p : Int → Bool) : Tree → Bool
  | .leaf => true
  | .node l x r => p x && l.all p && r.all p

/-- The BST invariant from the spec: at every node, all values of the left
subtree are less than the node value, which is less than all values of the
right subtree (strictness also rules out duplicates). -/
def Tree.isBST : Tree → Bool
  | .leaf => true
  | .node l x r =>
      l.all (fun y => decide (y < x)) && r.all (fun y => decide (x < y)) &&
      l.isBST && r.isBST

/-- `t.mem v` holds when the value `v` occurs somewhere in `t`. -/
def Tree.mem (v : Int) : Tree → Bool
  | .leaf => false
  | .node l x r => decide (v = x) || l.mem v || r.mem v

/-- Number of nodes in the tree. -/
def Tree.size : Tree → Nat
  | .leaf => 0
  | .node l _ r => l.size + r.size + 1

/-- Value stored at the root, `none` for the empty tree (`this.root.value`). -/
def Tree.rootValue : Tree → Option Int
  | .leaf => none
  | .node _ x _ => some x

/-- `BST.insert(value)` from `bst.js`: returns (success, path, updated tree).
The JS version mutates `this`; we return the new tree explicitly. -/
def Tree.insert : Tree → Int → Bool × List Int × Tree
  | .leaf, v => (true, [v], .node .leaf v .leaf)
  | .node l x r, v =>
      if v = x then (false, [x], .node l x r)
      else if v < x then
        let res := l.insert v
        (res.1, x :: res.2.1, .node res.2.2 x r)
      else
        let res := r.insert v
        (res.1, x :: res.2.1, .node l x res.2.2)

/-- `BST.search(value)` from `bst.js`: returns (found, comparison path). -/
def Tree.search : Tree → Int → Bool × List Int
  | .leaf, _ => (false, [])
  | .node l x r, v =>
      if v = x then (true, [x])
      else if v < x then
        let res := l.search v
        (res.1, x :: res.2)
      else
        let res := r.search v
        (res.1, x :: res.2)

/-- The successor-descent loop of `BST.remove` case 3 applied to the subtree
`node l x r` (the right child of the node being removed): returns the values
pushed onto `path` during that descent, the in-order successor's value, and
the subtree after the successor node is excised (its parent's slot is linked
to the successor's right child). -/
def Tree.removeMin : Tree → Int → Tree → List Int × Int × Tree
  | .leaf, x, r => ([x], x, r)
  | .node a b c, x, r =>
      let res := Tree.removeMin a b c
      (x :: res.1, res.2.1, .node res.2.2 x r)

/-- `BST.remove(value)` from `bst.js`: descend to the target pushing visited
values; leaf and one-child cases splice directly, the two-children case copies
the in-order successor's value and excises the successor node. -/
def Tree.remove : Tree → Int → Bool × List Int × Tree
  | .leaf, _ => (false, [], .leaf)
  | .node l x r, v =>
      if v = x then
        match l, r with
        | .leaf, .leaf => (true, [x], .leaf)
        | .leaf, .node a b c => (true, [x], .node a b c)
        | .node a b c, .leaf => (true, [x], .node a b c)
        | .node a b c, .node d e f =>
            let res := Tree.removeMin d e f
            (true, x :: res.1, .node (.node a b c) res.2.1 res.2.2)
      else if v < x then
        let res := l.remove v
        (res.1, x :: res.2.1, .node res.2.2 x r)
      else
        let res := r.remove v
        (res.1, x :: res.2.1, .node l x res.2.2)

/-- `BST.findMin()` from `bst.js`: (value, path, message). -/
def Tree.findMin : Tree → Option Int × List Int × String
  | .leaf => (none, [], "Tree is empty")
  | .node .leaf x _ => (some x, [x], "Minimum value is " ++ toString x)
  | .node (.node a b c) x _ =>
      let res := (Tree.node a b c).findMin
      (res.1, x :: res.2.1, res.2.2)

/-- `BST.findMax()` from `bst.js`: (value, path, message). -/
def Tree.findMax : Tree → Option Int × List Int × String
  | .leaf => (none, [], "Tree is empty")
  | .node _ x .leaf => (some x, [x], "Maximum value is " ++ toString x)
  | .node _ x (.node a b c) =>
      let res := (Tree.node a b c).findMax
      (res.1, x :: res.2.1, res.2.2)

/-- `BST.clear()` from `bst.js`: drops the root, returns success. -/
def Tree.clearAll (_t : Tree) : Bool × Tree := (true, .leaf)

/-- `BST.inorder()` values list (left, root, right). -/
def Tree.inorder : Tree → List Int
  | .leaf => []
  | .node l x r => l.inorder ++ x :: r.inorder

/-- Traversal event tags used by the detailed traversals (`'enter'`, `'visit'`,
`'exit'` strings in `bst.js`). -/
inductive Action where
  | enter : Action
  | visit : Action
  | exit : Action
deriving DecidableEq, Repr

/-- One `{ value, action }` step record of a detailed traversal. -/
structure Step where
  value : Int
  action : Action
deriving DecidableEq, Repr

/-- `BST.inorderDetailed()` event log: enter, recurse left, visit, recurse
right, exit. -/
def Tree.inorderDetailed : Tree → List Step
  | .leaf => []
  | .node l x r =>
      ⟨x, .enter⟩ :: (l.inorderDetailed ++ ⟨x, .visit⟩ :: (r.inorderDetailed ++ [⟨x, .exit⟩]))

/-- `BST.preorderDetailed()` event log: enter, visit, recurse left, recurse
right, exit. -/
def Tree.preorderDetailed : Tree → List Step
  | .leaf => []
  | .node l x r =>
      ⟨x, .enter⟩ :: ⟨x, .visit⟩ :: (l.preorderDetailed ++ (r.preorderDetailed ++ [⟨x, .exit⟩]))

/-- `BST.postorderDetailed()` event log: enter, recurse left, recurse right,
visit, exit. -/
def Tree.postorderDetailed : Tree → List Step
  | .leaf => []
  | .node l x r =>
      ⟨x, .enter⟩ :: (l.postorderDetailed ++ (r.postorderDetailed ++ [⟨x, .visit⟩, ⟨x, .exit⟩]))

/-- Values on the strict left spine of a tree, root to leftmost inclusive. -/
def Tree.leftSpine : Tree → List Int
  | .leaf => []
  | .node l x _ => x :: l.leftSpine

/-- Values on the strict right spine of a tree, root to rightmost inclusive. -/
def Tree.rightSpine : Tree → List Int
  | .leaf => []
  | .node _ x r => x :: r.rightSpine

/-- Value of the leftmost node, `none` for the empty tree. -/
def Tree.leftmostVal : Tree → Option Int
  | .leaf => none
  | .node .leaf x _ => some x
  | .node (.node a b c) _ _ => (Tree.node a b c).leftmostVal

/-- Value of the rightmost node, `none` for the empty tree. -/
def Tree.rightmostVal : Tree → Option Int
  | .leaf => none
  | .node _ x .leaf => some x
  | .node _ _ (.node a b c) => (Tree.node a b c).rightmostVal

/-- The tree with its leftmost node excised: the leftmost node's parent slot is
linked to the leftmost node's right child. -/
def Tree.exciseLeftmost : Tree → Tree
  | .leaf => .leaf
  | .node .leaf _ r => r
  | .node (.node a b c) x r => .node (Tree.node a b c).exciseLeftmost x r

/-- Building a tree by inserting a list of values in order into an empty tree
(as the preset generation in `App.tsx` does). -/
def buildTree (vs : List Int) : Tree :=
  vs.foldl (fun t v => (t.insert v).2.2) .leaf

/-- Number of `enter` events in an event log. -/
def enterCount (l : List Step) : Nat :=
  l.countP (fun s => decide (s.action = Action.enter))

/-- Number of `exit` events in an event log. -/
def exitCount (l : List Step) : Nat :=
  l.countP (fun s => decide (s.action = Action.exit))

/-- Number of events with the given value and action in an event log. -/
def stepCount (l : List Step) (v : Int) (a : Action) : Nat :=
  l.countP (fun s => decide (s.value = v ∧ s.action = a))

/-- The stack-depth safety property of an event log: on every prefix, the
number of exit events never exceeds the number of enter events. -/
def prefixSafe (l : List Step) : Prop :=
  ∀ n, exitCount (l.take n) ≤ enterCount (l.take n)

/-!
The animation-frame generators of `App.tsx`. They treat node coordinates
opaquely (only copying them into frames), so we parameterize over the
coordinate type `α`; the coordinate lookup `getPos` models the closure over
`bst.getNodesForVisualization()` (`getPos(value) -> {x,y} | null`).
-/

/-- One endpoint of an animated edge: `{ x, y, value }` in `App.tsx`. -/
structure EdgeEnd (α : Type) where
  pos : α
  value : Int
deriving DecidableEq, Repr

/-- `AnimatedEdge` from `App.tsx`: a `from` endpoint and a `to` endpoint. -/
structure AnimatedEdge (α : Type) where
  edgeFrom : EdgeEnd α
  edgeTo : EdgeEnd α
deriving DecidableEq, Repr

/-- `AnimationFrame` from `App.tsx`: one renderable snapshot. -/
structure Frame (α : Type) where
  highlightedNode : Option Int
  pointerPosition : Option α
  visitedNodes : List Int
  pathNodes : List Int
  connectedEdges : List (AnimatedEdge α)
deriving DecidableEq, Repr

/-- The `for (let i = 0; ...)` loop body of `generatePathFrames`, with the
cumulative `currentVisited` and `currentAnimatedEdges` state threaded through;
returns the emitted frames together with the final accumulator values (needed
by the trailing `finalHighlight` frame). -/
def pathFramesLoop {α : Type} (getPos : Int → Option α) :
    List Int → List Int → List (AnimatedEdge α) →
    List (Frame α) × List Int × List (AnimatedEdge α)
  | [], visited, edges => ([], visited, edges)
  | v :: rest, visited, edges =>
      match getPos v with
      | none => pathFramesLoop getPos rest visited edges
      | some pos =>
          let visited2 := visited ++ [v]
          let arrive : Frame α := ⟨some v, some pos, visited2, [], edges⟩
          match rest with
          | [] =>
              let res := pathFramesLoop getPos rest visited2 edges
              (arrive :: res.1, res.2)
          | next :: _ =>
              match getPos next with
              | none =>
                  let res := pathFramesLoop getPos rest visited2 edges
                  (arrive :: res.1, res.2)
              | some nextPos =>
                  let edges2 := edges ++ [⟨⟨pos, v⟩, ⟨nextPos, next⟩⟩]
                  let grow : Frame α := ⟨some v, some pos, visited2, [], edges2⟩
                  let res := pathFramesLoop getPos rest visited2 edges2
                  (arrive :: grow :: res.1, res.2)

/-- `generatePathFrames(path, finalHighlight?)` from `App.tsx`: initial blank
frame, then the loop frames, then the optional trailing highlight frame. -/
def generatePathFrames {α : Type} (getPos : Int → Option α)
    (path : List Int) (finalHighlight : Option Int) : List (Frame α) :=
  let res := pathFramesLoop getPos path [] []
  let trailing : List (Frame α) :=
    match finalHighlight with
    | none => []
    | some fh =>
        match getPos fh with
        | none => []
        | some finalPos => [⟨some fh, some finalPos, res.2.1, [], res.2.2⟩]
  ⟨none, none, [], [], []⟩ :: (res.1 ++ trailing)

/-- The `for (const step of steps)` loop of `generateTraversalFrames`, with the
cumulative `currentVisited` list and `currentPathNodes` stack threaded through;
the final completion frame is emitted at the end of the list. Note the exit
branch reproduces the JS truthiness test `if (parentId)`: a stack top of value
`0` is treated like an empty stack. -/
def travFramesLoop {α : Type} (getPos : Int → Option α) :
    List Step → List Int → List Int → List (Frame α)
  | [], visited, _ => [⟨none, none, visited, [], []⟩]
  | s :: rest, visited, stack =>
      match getPos s.value with
      | none => travFramesLoop getPos rest visited stack
      | some pos =>
          match s.action with
          | .enter =>
              let stack2 := stack ++ [s.value]
              ⟨some s.value, some pos, visited, stack2, []⟩ ::
                travFramesLoop getPos rest visited stack2
          | .visit =>
              let visited2 := visited ++ [s.value]
              ⟨some s.value, some pos, visited2, stack, []⟩ ::
                travFramesLoop getPos rest visited2 stack
          | .exit =>
              let stack2 := stack.filter (fun w => w ≠ s.value)
              let hp : Option Int × Option α :=
                match stack2.getLast? with
                | some p => if p = 0 then (none, none) else (some p, getPos p)
                | none => (none, none)
              ⟨hp.1, hp.2, visited, stack2, []⟩ ::
                travFramesLoop getPos rest visited stack2

/-- `generateTraversalFrames(steps)` from `App.tsx`: initial blank frame, then
one frame per non-skipped event, then the trailing completion frame. -/
def generateTraversalFrames {α : Type} (getPos : Int → Option α)
    (steps : List Step) : List (Frame α) :=
  ⟨none, none, [], [], []⟩ :: travFramesLoop getPos steps [] []

/-!
Spec-side formulations of the two generators, written from the words of the
specification (§4.2 `fromPath` / `fromEvents`), to be compared with the code
embeddings above.
-/

/-- Pair each list element with the next element of the list, when one exists
("if a next value exists in the path"). -/
def withNext : List Int → List (Int × Option Int)
  | [] => []
  | x :: rest => (x, rest.head?) :: withNext rest

/-- Modelled from the spec (§4.2 fromPath, steps 2 and defensive skip): frames
emitted for one path value given the next path value and the cumulative
visited/edge accumulators: a value absent from the coordinate lookup is
skipped without a frame; otherwise one arrival frame (value appended to the
visited list, pointer/highlight on its coordinate), then, when a next value
exists and has a coordinate, a second frame adding the edge between the two
coordinates to the connected-edges list. -/
def pathStepSpec {α : Type} (getPos : Int → Option α)
    (st : List Int × List (AnimatedEdge α)) (v : Int) (next : Option Int) :
    List (Frame α) × List Int × List (AnimatedEdge α) :=
  match getPos v with
  | none => ([], st)
  | some pos =>
      let visited2 := st.1 ++ [v]
      let arrive : Frame α := ⟨some v, some pos, visited2, [], st.2⟩
      match next with
      | none => ([arrive], visited2, st.2)
      | some nv =>
          match getPos nv with
          | none => ([arrive], visited2, st.2)
          | some npos =>
              let edges2 := st.2 ++ [⟨⟨pos, v⟩, ⟨npos, nv⟩⟩]
              ([arrive, ⟨some v, some pos, visited2, [], edges2⟩], visited2, edges2)

/-- Modelled from the spec: fold `pathStepSpec` over the path values paired
with their successors, accumulating the emitted frames and the state. -/
def pathFramesSpecGo {α : Type} (getPos : Int → Option α) :
    List (Int × Option Int) → List Int → List (AnimatedEdge α) →
    List (Frame α) × List Int × List (AnimatedEdge α)
  | [], visited, edges => ([], visited, edges)
  | (v, next) :: rest, visited, edges =>
      let step := pathStepSpec getPos (visited, edges) v next
      let res := pathFramesSpecGo getPos rest step.2.1 step.2.2
      (step.1 ++ res.1, res.2)

/-- Modelled from the spec (§4.2 fromPath): initial blank frame, per-value
frames, and, when `finalHighlight` is supplied and has a coordinate, one
trailing frame highlighting exactly that value without altering the
visited/edge accumulation. -/
def generatePathFramesSpec {α : Type} (getPos : Int → Option α)
    (path : List Int) (finalHighlight : Option Int) : List (Frame α) :=
  let res := pathFramesSpecGo getPos (withNext path) [] []
  let trailing : List (Frame α) :=
    match finalHighlight with
    | none => []
    | some fh =>
        match getPos fh with
        | none => []
        | some finalPos => [⟨some fh, some finalPos, res.2.1, [], res.2.2⟩]
  ⟨none, none, [], [], []⟩ :: (res.1 ++ trailing)

/-- Modelled from the spec (§4.2 fromEvents): identical to `travFramesLoop`
except for the exit branch, which follows the spec's words exactly: pop the
value from the path-node stack; if the stack is non-empty, move the
pointer/highlight to the new top; if empty, clear the pointer/highlight
(no special treatment of the value `0`). -/
def travFramesSpecLoop {α : Type} (getPos : Int → Option α) :
    List Step → List Int → List Int → List (Frame α)
  | [], visited, _ => [⟨none, none, visited, [], []⟩]
  | s :: rest, visited, stack =>
      match getPos s.value with
      | none => travFramesSpecLoop getPos rest visited stack
      | some pos =>
          match s.action with
          | .enter =>
              let stack2 := stack ++ [s.value]
              ⟨some s.value, some pos, visited, stack2, []⟩ ::
                travFramesSpecLoop getPos rest visited stack2
          | .visit =>
              let visited2 := visited ++ [s.value]
              ⟨some s.value, some pos, visited2, stack, []⟩ ::
                travFramesSpecLoop getPos rest visited2 stack
          | .exit =>
              let stack2 := stack.filter (fun w => w ≠ s.value)
              let hp : Option Int × Option α :=
                match stack2.getLast? with
                | some p => (some p, getPos p)
                | none => (none, none)
              ⟨hp.1, hp.2, visited, stack2, []⟩ ::
                travFramesSpecLoop getPos rest visited stack2

/-- Modelled from the spec (§4.2 fromEvents): initial blank frame, one frame
per non-skipped event, then the trailing completion frame with cleared
pointer/highlight and empty path-node stack. -/
def generateTraversalFramesSpec {α : Type} (getPos : Int → Option α)
    (steps : List Step) : List (Frame α) :=
  ⟨none, none, [], [], []⟩ :: travFramesSpecLoop getPos steps [] []

/-- Coordinate lookup used by the concrete frame-generator inputs below:
every value `v` is placed at `(v, 0)`. -/
def allCoords : Int → Option (Int × Int) := fun v => some (v, 0)

/-- Event log exercising the exit branch with a stack top of value `0`:
enter 0, enter 1, exit 1. -/
def zeroTopSteps : List Step := [⟨0, .enter⟩, ⟨1, .enter⟩, ⟨1, .exit⟩]

/-- A small all-nonzero event log (the inorder detailed log of a two-node
tree), used to instantiate the traversal-generator theorems. -/
def smallSteps : List Step :=
  [⟨5, .enter⟩, ⟨3, .enter⟩, ⟨3, .visit⟩, ⟨3, .exit⟩, ⟨5, .visit⟩, ⟨5, .exit⟩]

/-!
Sanity checks on concrete inputs.
-/

example : (buildTree [15, 6, 23, 4, 7, 20, 50]).inorder = [4, 6, 7, 15, 20, 23, 50] := by decide

example : (buildTree [15, 6, 23, 4, 7, 20, 50]).search 20 = (true, [15, 23, 20]) := by decide

example : ((buildTree [15, 6, 23, 4, 7, 20, 50]).remove 15).2.2.rootValue = some 20 := by decide

example :
    generateTraversalFrames allCoords zeroTopSteps =
      [⟨none, none, [], [], []⟩,
       ⟨some 0, some (0, 0), [], [0], []⟩,
       ⟨some 1, some (1, 0), [], [0, 1], []⟩,
       ⟨none, none, [], [0], []⟩,
       ⟨none, none, [], [], []⟩] := by decide

/-!
Basic lemmas about `Tree.all`, `Tree.mem` and the BST invariant.
-/

theorem Tree.all_imp {p q : Int → Bool} (h : ∀ y, p y = true → q y = true) :
    ∀ t : Tree, t.all p = true → t.all q = true
  | .leaf, _ => rfl
  | .node l x r, ht => by
      simp only [Tree.all, Bool.and_eq_true] at ht ⊢
      exact ⟨⟨h x ht.1.1, Tree.all_imp h l ht.1.2⟩, Tree.all_imp h r ht.2⟩

theorem Tree.all_mem {p : Int → Bool} {v : Int} :
    ∀ {t : Tree}, t.all p = true → t.mem v = true → p v = true
  | .leaf, _, hm => by simp [Tree.mem] at hm
  | .node l x r, ht, hm => by
      simp only [Tree.all, Bool.and_eq_true] at ht
      simp only [Tree.mem, Bool.or_eq_true, decide_eq_true_eq] at hm
      rcases hm with (rfl | hm) | hm
      . exact ht.1.1
      . exact Tree.all_mem ht.1.2 hm
      . exact Tree.all_mem ht.2 hm

theorem Tree.not_mem_of_all {p : Int → Bool} {t : Tree} {v : Int}
    (ht : t.all p = true) (hv : p v = false) : t.mem v = false := by
  cases hm : t.mem v with
  | false => rfl
  | true => rw [Tree.all_mem ht hm] at hv; exact absurd hv (by simp)

/-!
`insert` lemmas: the updated tree.
-/

theorem Tree.insert_all {p : Int → Bool} {v : Int} :
    ∀ {t : Tree}, t.all p = true → p v = true → ((t.insert v).2.2).all p = true
  | .leaf, _, hv => by simp [Tree.insert, Tree.all, hv]
  | .node l x r, ht, hv => by
      simp only [Tree.all, Bool.and_eq_true] at ht
      by_cases hvx : v = x
      . simp [Tree.insert, hvx, Tree.all, ht.1.1, ht.1.2, ht.2]
      . by_cases hlt : v < x
        . simpa [Tree.insert, hvx, hlt, Tree.all, ht.1.1, ht.2] using
            Tree.insert_all ht.1.2 hv
        . simpa [Tree.insert, hvx, hlt, Tree.all, ht.1.1, ht.1.2] using
            Tree.insert_all ht.2 hv

theorem Tree.isBST_insert (v : Int) :
    ∀ {t : Tree}, t.isBST = true → ((t.insert v).2.2).isBST = true
  | .leaf, _ => by simp [Tree.insert, Tree.isBST, Tree.all]
  | .node l x r, ht => by
      simp only [Tree.isBST, Bool.and_eq_true] at ht
      obtain ⟨⟨⟨hla, hra⟩, hlb⟩, hrb⟩ := ht
      by_cases hvx : v = x
      . simp [Tree.insert, hvx, Tree.isBST, hla, hra, hlb, hrb]
      . by_cases hlt : v < x
        . have hall : ((l.insert v).2.2).all (fun y => decide (y < x)) = true :=
            Tree.insert_all hla (by simp [hlt])
          simp [Tree.insert, hvx, hlt, Tree.isBST, hall, hra, hrb,
            Tree.isBST_insert v hlb]
        . have hgt : x < v := by
            rcases lt_trichotomy v x with h | h | h
            . exact absurd h hlt
            . exact absurd h hvx
            . exact h
          have hall : ((r.insert v).2.2).all (fun y => decide (x < y)) = true :=
            Tree.insert_all hra (by simp [hgt])
          simp [Tree.insert, hvx, hlt, Tree.isBST, hall, hla, hlb,
            Tree.isBST_insert v hrb]

theorem Tree.mem_insert {v w : Int} :
    ∀ {t : Tree}, ((t.insert v).2.2).mem w = true ↔ (t.mem w = true ∨ w = v)
  | .leaf => by simp [Tree.insert, Tree.mem]
  | .node l x r => by
      have ihl : ((l.insert v).2.2).mem w = true ↔ (l.mem w = true ∨ w = v) :=
        Tree.mem_insert
      have ihr : ((r.insert v).2.2).mem w = true ↔ (r.mem w = true ∨ w = v) :=
        Tree.mem_insert
      by_cases hvx : v = x
      . subst hvx
        simp only [Tree.insert, if_pos rfl, Tree.mem, Bool.or_eq_true, decide_eq_true_eq]
        constructor
        . exact Or.inl
        . rintro (h | rfl)
          . exact h
          . exact Or.inl (Or.inl rfl)
      . by_cases hlt : v < x
        . simp [Tree.insert, hvx, hlt, Tree.mem] at ihl ⊢
          tauto
        . simp [Tree.insert, hvx, hlt, Tree.mem] at ihr ⊢
          tauto

/-!
Destructuring lemmas for the node cases of `Tree.all`, `Tree.isBST`, `Tree.mem`,
and unfolding equations for `Tree.removeMin` and `Tree.remove`.
-/

theorem Tree.all_node_iff {p : Int → Bool} {l r : Tree} {x : Int} :
    (Tree.node l x r).all p = true ↔
      p x = true ∧ l.all p = true ∧ r.all p = true := by
  simp [Tree.all, Bool.and_eq_true, and_assoc]

theorem Tree.isBST_node_iff {l r : Tree} {x : Int} :
    (Tree.node l x r).isBST = true ↔
      l.all (fun y => decide (y < x)) = true ∧ r.all (fun y => decide (x < y)) = true ∧
      l.isBST = true ∧ r.isBST = true := by
  simp [Tree.isBST, Bool.and_eq_true, and_assoc]

theorem Tree.mem_node_iff {l r : Tree} {x v : Int} :
    (Tree.node l x r).mem v = true ↔
      (v = x ∨ l.mem v = true ∨ r.mem v = true) := by
  simp [Tree.mem, Bool.or_eq_true, or_assoc]

theorem Tree.removeMin_node (a1 : Tree) (a2 : Int) (a3 : Tree) (x : Int) (r : Tree) :
    Tree.removeMin (.node a1 a2 a3) x r =
      (x :: (Tree.removeMin a1 a2 a3).1, (Tree.removeMin a1 a2 a3).2.1,
        .node (Tree.removeMin a1 a2 a3).2.2 x r) := rfl

theorem Tree.remove_two_children (a : Tree) (b : Int) (c d : Tree) (e : Int) (f : Tree)
    (x : Int) :
    Tree.remove (.node (.node a b c) x (.node d e f)) x =
      (true, x :: (Tree.removeMin d e f).1,
        .node (.node a b c) (Tree.removeMin d e f).2.1 (Tree.removeMin d e f).2.2) := by
  simp [Tree.remove]

theorem Tree.remove_lt {l r : Tree} {x v : Int} (h : v < x) :
    Tree.remove (.node l x r) v =
      ((l.remove v).1, x :: (l.remove v).2.1, .node (l.remove v).2.2 x r) := by
  simp [Tree.remove, ne_of_lt h, h]

theorem Tree.remove_gt {l r : Tree} {x v : Int} (h : x < v) :
    Tree.remove (.node l x r) v =
      ((r.remove v).1, x :: (r.remove v).2.1, .node l x (r.remove v).2.2) := by
  simp [Tree.remove, (ne_of_lt h).symm, not_lt.mpr (le_of_lt h)]

/-!
`removeMin` lemmas: the successor value and the excised subtree.
-/

theorem Tree.removeMin_all {p : Int → Bool} :
    ∀ (a : Tree) (x : Int) (r : Tree), (Tree.node a x r).all p = true →
      p (Tree.removeMin a x r).2.1 = true ∧ ((Tree.removeMin a x r).2.2).all p = true
  | .leaf, x, r, h => by
      rw [Tree.all_node_iff] at h
      simpa [Tree.removeMin] using ⟨h.1, h.2.2⟩
  | .node a1 a2 a3, x, r, h => by
      rw [Tree.all_node_iff] at h
      have ih := Tree.removeMin_all a1 a2 a3 h.2.1
      rw [Tree.removeMin_node]
      exact ⟨ih.1, Tree.all_node_iff.mpr ⟨h.1, ih.2, h.2.2⟩⟩

theorem Tree.removeMin_isBST :
    ∀ (a : Tree) (x : Int) (r : Tree), (Tree.node a x r).isBST = true →
      ((Tree.removeMin a x r).2.2).isBST = true ∧
      ((Tree.removeMin a x r).2.2).all
        (fun y => decide ((Tree.removeMin a x r).2.1 < y)) = true
  | .leaf, x, r, h => by
      rw [Tree.isBST_node_iff] at h
      simpa [Tree.removeMin] using ⟨h.2.2.2, h.2.1⟩
  | .node a1 a2 a3, x, r, h => by
      rw [Tree.isBST_node_iff] at h
      obtain ⟨hla, hra, hlb, hrb⟩ := h
      have ihb := Tree.removeMin_isBST a1 a2 a3 hlb
      have ihm := Tree.removeMin_all a1 a2 a3 hla
      have hmx : (Tree.removeMin a1 a2 a3).2.1 < x := by simpa using ihm.1
      rw [Tree.removeMin_node]
      constructor
      . refine Tree.isBST_node_iff.mpr ⟨ihm.2, hra, ihb.1, hrb⟩
      . refine Tree.all_node_iff.mpr ⟨by simpa using hmx, ihb.2, ?_⟩
        refine Tree.all_imp (fun y hy => ?_) r hra
        simp only [decide_eq_true_eq] at hy ⊢
        exact lt_trans hmx hy

/-!
`remove` lemmas: the updated tree.
-/

theorem Tree.remove_all {p : Int → Bool} {v : Int} :
    ∀ {t : Tree}, t.all p = true → ((t.remove v).2.2).all p = true
  | .leaf, _ => rfl
  | .node l x r, h => by
      rw [Tree.all_node_iff] at h
      rcases lt_trichotomy v x with hlt | heq | hgt
      . rw [Tree.remove_lt hlt]
        exact Tree.all_node_iff.mpr ⟨h.1, Tree.remove_all h.2.1, h.2.2⟩
      . subst heq
        cases l with
        | leaf =>
            cases r with
            | leaf => simp [Tree.remove, Tree.all]
            | node d e f => simpa [Tree.remove] using h.2.2
        | node a b c =>
            cases r with
            | leaf => simpa [Tree.remove] using h.2.1
            | node d e f =>
                have hmin := Tree.removeMin_all d e f h.2.2
                rw [Tree.remove_two_children]
                exact Tree.all_node_iff.mpr ⟨hmin.1, h.2.1, hmin.2⟩
      . rw [Tree.remove_gt hgt]
        exact Tree.all_node_iff.mpr ⟨h.1, h.2.1, Tree.remove_all h.2.2⟩

theorem Tree.isBST_remove (v : Int) :
    ∀ {t : Tree}, t.isBST = true → ((t.remove v).2.2).isBST = true
  | .leaf, _ => rfl
  | .node l x r, h => by
      rw [Tree.isBST_node_iff] at h
      obtain ⟨hla, hra, hlb, hrb⟩ := h
      rcases lt_trichotomy v x with hlt | heq | hgt
      . rw [Tree.remove_lt hlt]
        exact Tree.isBST_node_iff.mpr
          ⟨Tree.remove_all hla, hra, Tree.isBST_remove v hlb, hrb⟩
      . subst heq
        cases l with
        | leaf =>
            cases r with
            | leaf => simp [Tree.remove, Tree.isBST]
            | node d e f => simpa [Tree.remove] using hrb
        | node a b c =>
            cases r with
            | leaf => simpa [Tree.remove] using hlb
            | node d e f =>
                have ihb := Tree.removeMin_isBST d e f hrb
                have ihm := Tree.removeMin_all d e f hra
                have hxm : v < (Tree.removeMin d e f).2.1 := by simpa using ihm.1
                rw [Tree.remove_two_children]
                refine Tree.isBST_node_iff.mpr ⟨?_, ihb.2, hlb, ihb.1⟩
                refine Tree.all_imp (fun y hy => ?_) _ hla
                simp only [decide_eq_true_eq] at hy ⊢
                exact lt_trans hy hxm
      . rw [Tree.remove_gt hgt]
        exact Tree.isBST_node_iff.mpr
          ⟨hla, Tree.remove_all hra, hlb, Tree.isBST_remove v hrb⟩

theorem Tree.remove_not_mem (v : Int) :
    ∀ {t : Tree}, t.isBST = true → ((t.remove v).2.2).mem v = false
  | .leaf, _ => rfl
  | .node l x r, h => by
      rw [Tree.isBST_node_iff] at h
      obtain ⟨hla, hra, hlb, hrb⟩ := h
      rcases lt_trichotomy v x with hlt | heq | hgt
      . rw [Tree.remove_lt hlt]
        have ihr : r.mem v = false :=
          Tree.not_mem_of_all hra (by simp [not_lt.mpr (le_of_lt hlt)])
        cases hm : ((Tree.node (l.remove v).2.2 x r)).mem v with
        | false => rfl
        | true =>
            rcases Tree.mem_node_iff.mp hm with hh | hh | hh
            . exact absurd hh (ne_of_lt hlt)
            . rw [Tree.remove_not_mem v hlb] at hh; exact hh.symm
            . rw [ihr] at hh; exact hh.symm
      . subst heq
        cases l with
        | leaf =>
            cases r with
            | leaf => simp [Tree.remove, Tree.mem]
            | node d e f =>
                simpa [Tree.remove] using Tree.not_mem_of_all hra (by simp)
        | node a b c =>
            cases r with
            | leaf =>
                simpa [Tree.remove] using Tree.not_mem_of_all hla (by simp)
            | node d e f =>
                have ihm := Tree.removeMin_all d e f hra
                have hxm : v < (Tree.removeMin d e f).2.1 := by simpa using ihm.1
                have hl : (Tree.node a b c).mem v = false :=
                  Tree.not_mem_of_all hla (by simp)
                have hr2 : ((Tree.removeMin d e f).2.2).mem v = false :=
                  Tree.not_mem_of_all ihm.2 (by simp)
                rw [Tree.remove_two_children]
                cases hm : ((Tree.node (Tree.node a b c) (Tree.removeMin d e f).2.1
                    (Tree.removeMin d e f).2.2)).mem v with
                | false => rfl
                | true =>
                    rcases Tree.mem_node_iff.mp hm with hh | hh | hh
                    . exact absurd hh (ne_of_lt hxm)
                    . rw [hl] at hh; exact hh.symm
                    . rw [hr2] at hh; exact hh.symm
      . rw [Tree.remove_gt hgt]
        have ihl : l.mem v = false :=
          Tree.not_mem_of_all hla (by simp [not_lt.mpr (le_of_lt hgt)])
        cases hm : ((Tree.node l x (r.remove v).2.2)).mem v with
        | false => rfl
        | true =>
            rcases Tree.mem_node_iff.mp hm with hh | hh | hh
            . exact absurd hh (Ne.symm (ne_of_lt hgt))
            . rw [ihl] at hh; exact hh.symm
            . rw [Tree.remove_not_mem v hrb] at hh; exact hh.symm

/-!
`search` lemmas.
-/

theorem Tree.search_found_mem :
    ∀ {t : Tree} {v : Int}, (t.search v).1 = true → t.mem v = true
  | .leaf, v, h => by simp [Tree.search] at h
  | .node l x r, v, h => by
      by_cases hvx : v = x
      . exact Tree.mem_node_iff.mpr (Or.inl hvx)
      . by_cases hlt : v < x
        . simp only [Tree.search, if_neg hvx, if_pos hlt] at h
          exact Tree.mem_node_iff.mpr (Or.inr (Or.inl (Tree.search_found_mem h)))
        . simp only [Tree.search, if_neg hvx, if_neg hlt] at h
          exact Tree.mem_node_iff.mpr (Or.inr (Or.inr (Tree.search_found_mem h)))

theorem Tree.search_not_found {t : Tree} {v : Int} (h : t.mem v = false) :
    (t.search v).1 = false := by
  cases hs : (t.search v).1 with
  | false => rfl
  | true => rw [Tree.search_found_mem hs] at h; exact absurd h (by simp)

theorem Tree.search_lt {l r : Tree} {x v : Int} (h : v < x) :
    Tree.search (.node l x r) v = ((l.search v).1, x :: (l.search v).2) := by
  simp [Tree.search, ne_of_lt h, h]

theorem Tree.search_gt {l r : Tree} {x v : Int} (h : x < v) :
    Tree.search (.node l x r) v = ((r.search v).1, x :: (r.search v).2) := by
  simp [Tree.search, (ne_of_lt h).symm, not_lt.mpr (le_of_lt h)]

theorem Tree.mem_node_false_iff {l r : Tree} {x v : Int} :
    (Tree.node l x r).mem v = false ↔
      (v ≠ x ∧ l.mem v = false ∧ r.mem v = false) := by
  simp [Tree.mem, and_assoc]

/-!
Unchanged-tree lemmas for duplicate insert and not-found remove.
-/

theorem Tree.insert_duplicate (v : Int) :
    ∀ {t : Tree}, t.isBST = true → t.mem v = true →
      t.insert v = (false, (t.search v).2, t)
  | .node l x r, hb, hm => by
      rw [Tree.isBST_node_iff] at hb
      obtain ⟨hla, hra, hlb, hrb⟩ := hb
      rcases lt_trichotomy v x with hlt | heq | hgt
      . have hmr : r.mem v = false :=
          Tree.not_mem_of_all hra (by simp [not_lt.mpr (le_of_lt hlt)])
        have hml : l.mem v = true := by
          rcases Tree.mem_node_iff.mp hm with hh | hh | hh
          . exact absurd hh (ne_of_lt hlt)
          . exact hh
          . rw [hmr] at hh; exact absurd hh (by simp)
        have ih := Tree.insert_duplicate v hlb hml
        rw [Tree.search_lt hlt]
        simp [Tree.insert, ne_of_lt hlt, hlt, ih]
      . subst heq
        simp [Tree.insert, Tree.search]
      . have hml : l.mem v = false :=
          Tree.not_mem_of_all hla (by simp [not_lt.mpr (le_of_lt hgt)])
        have hmr : r.mem v = true := by
          rcases Tree.mem_node_iff.mp hm with hh | hh | hh
          . exact absurd hh (Ne.symm (ne_of_lt hgt))
          . rw [hml] at hh; exact absurd hh (by simp)
          . exact hh
        have ih := Tree.insert_duplicate v hrb hmr
        rw [Tree.search_gt hgt]
        simp [Tree.insert, (ne_of_lt hgt).symm, not_lt.mpr (le_of_lt hgt), ih]

theorem Tree.remove_absent (v : Int) :
    ∀ {t : Tree}, t.mem v = false → t.remove v = (false, (t.search v).2, t)
  | .leaf, _ => by simp [Tree.remove, Tree.search]
  | .node l x r, hm => by
      rw [Tree.mem_node_false_iff] at hm
      obtain ⟨hvx, hml, hmr⟩ := hm
      rcases lt_trichotomy v x with hlt | heq | hgt
      . have ih := Tree.remove_absent v hml
        rw [Tree.remove_lt hlt, Tree.search_lt hlt, ih]
      . exact absurd heq hvx
      . have ih := Tree.remove_absent v hmr
        rw [Tree.remove_gt hgt, Tree.search_gt hgt, ih]

/-!
`inorder` lemmas: membership and sortedness.
-/

theorem Tree.mem_inorder {v : Int} :
    ∀ {t : Tree}, v ∈ t.inorder ↔ t.mem v = true
  | .leaf => by simp [Tree.inorder, Tree.mem]
  | .node l x r => by
      have ihl : v ∈ l.inorder ↔ l.mem v = true := Tree.mem_inorder
      have ihr : v ∈ r.inorder ↔ r.mem v = true := Tree.mem_inorder
      rw [Tree.mem_node_iff]
      simp only [Tree.inorder, List.mem_append, List.mem_cons]
      tauto

theorem Tree.inorder_sorted :
    ∀ {t : Tree}, t.isBST = true → List.Pairwise (· < ·) t.inorder
  | .leaf, _ => by simp [Tree.inorder]
  | .node l x r, h => by
      rw [Tree.isBST_node_iff] at h
      obtain ⟨hla, hra, hlb, hrb⟩ := h
      simp only [Tree.inorder]
      rw [List.pairwise_append]
      refine ⟨Tree.inorder_sorted hlb, ?_, ?_⟩
      . rw [List.pairwise_cons]
        refine ⟨fun b hb => ?_, Tree.inorder_sorted hrb⟩
        have := Tree.all_mem hra (Tree.mem_inorder.mp hb)
        simpa using this
      . intro a ha b hb
        have hax : a < x := by
          simpa using Tree.all_mem hla (Tree.mem_inorder.mp ha)
        rcases List.mem_cons.mp hb with rfl | hb
        . exact hax
        . have hxb : x < b := by
            simpa using Tree.all_mem hra (Tree.mem_inorder.mp hb)
          exact lt_trans hax hxb

/-!
`buildTree` lemmas.
-/

theorem foldl_insert_isBST :
    ∀ (vs : List Int) (t : Tree), t.isBST = true →
      (vs.foldl (fun t v => (t.insert v).2.2) t).isBST = true
  | [], _, h => h
  | v :: rest, t, h => by
      simp only [List.foldl_cons]
      exact foldl_insert_isBST rest _ (Tree.isBST_insert v h)

theorem buildTree_isBST (vs : List Int) : (buildTree vs).isBST = true :=
  foldl_insert_isBST vs .leaf rfl

theorem mem_foldl_insert (w : Int) :
    ∀ (vs : List Int) (t : Tree),
      (vs.foldl (fun t v => (t.insert v).2.2) t).mem w = true ↔
        (t.mem w = true ∨ w ∈ vs)
  | [], t => by simp
  | v :: rest, t => by
      simp only [List.foldl_cons, List.mem_cons]
      rw [mem_foldl_insert w rest]
      rw [show (((t.insert v).2.2).mem w = true) ↔ (t.mem w = true ∨ w = v) from
        Tree.mem_insert]
      tauto

theorem mem_buildTree {w : Int} (vs : List Int) :
    (buildTree vs).mem w = true ↔ w ∈ vs := by
  rw [buildTree, mem_foldl_insert]
  simp [Tree.mem]

/-!
Claim theorems for the tree engine.
-/

/-- C1: every tree-mutating operation (insert, remove, clear) preserves the
BST invariant — for every node, all left-subtree values are less than the
node's value, which is less than all right-subtree values, with no
duplicates — and for every value `v` inserted then removed, a subsequent
`search(v)` returns `found = false`. -/
theorem mutations_preserve_bst (t : Tree) (v : Int) (h : t.isBST = true) :
    ((t.insert v).2.2).isBST = true ∧
    ((t.remove v).2.2).isBST = true ∧
    ((t.clearAll).2).isBST = true ∧
    (((((t.insert v).2.2).remove v).2.2).search v).1 = false := by
  refine ⟨Tree.isBST_insert v h, Tree.isBST_remove v h, rfl, ?_⟩
  exact Tree.search_not_found (Tree.remove_not_mem v (Tree.isBST_insert v h))

/-- Witness for C1 at the example tree and `v = 9`. -/
theorem mutations_preserve_bst_witness :
    (buildTree [15, 6, 23, 4, 7, 20, 50]).isBST = true ∧
    (((buildTree [15, 6, 23, 4, 7, 20, 50]).insert 9).2.2).isBST = true ∧
    ((buildTree [15, 6, 23, 4, 7, 20, 50]).remove 9).2.2.isBST = true ∧
    (((buildTree [15, 6, 23, 4, 7, 20, 50]).clearAll).2).isBST = true ∧
    ((((((buildTree [15, 6, 23, 4, 7, 20, 50]).insert 9).2.2).remove 9).2.2).search 9).1
      = false :=
  ⟨by decide, mutations_preserve_bst (buildTree [15, 6, 23, 4, 7, 20, 50]) 9 (by decide)⟩

/-- C4: inserting a value already present returns `success = false` with the
comparison path and leaves the tree unchanged; removing or searching a value
not present returns `success/found = false` with the comparison path and
leaves the tree unchanged. -/
theorem duplicate_and_absent_are_noops (t : Tree) (v : Int) (h : t.isBST = true) :
    (t.mem v = true → t.insert v = (false, (t.search v).2, t)) ∧
    (t.mem v = false →
      t.remove v = (false, (t.search v).2, t) ∧ (t.search v).1 = false) :=
  ⟨fun hm => Tree.insert_duplicate v h hm,
   fun hm => ⟨Tree.remove_absent v hm, Tree.search_not_found hm⟩⟩

/-- Witness for C4 at the example tree and `v = 7` (present). -/
theorem duplicate_and_absent_are_noops_witness :
    (buildTree [15, 6, 23, 4, 7, 20, 50]).isBST = true ∧
    (((buildTree [15, 6, 23, 4, 7, 20, 50]).mem 7 = true →
        (buildTree [15, 6, 23, 4, 7, 20, 50]).insert 7 =
          (false, ((buildTree [15, 6, 23, 4, 7, 20, 50]).search 7).2,
            buildTree [15, 6, 23, 4, 7, 20, 50])) ∧
      ((buildTree [15, 6, 23, 4, 7, 20, 50]).mem 7 = false →
        (buildTree [15, 6, 23, 4, 7, 20, 50]).remove 7 =
          (false, ((buildTree [15, 6, 23, 4, 7, 20, 50]).search 7).2,
            buildTree [15, 6, 23, 4, 7, 20, 50]) ∧
        ((buildTree [15, 6, 23, 4, 7, 20, 50]).search 7).1 = false)) :=
  ⟨by decide, duplicate_and_absent_are_noops (buildTree [15, 6, 23, 4, 7, 20, 50]) 7
    (by decide)⟩

/-- C3: inserting any sequence of distinct values yields a tree whose inorder
traversal lists exactly those values in strictly ascending order; concretely,
inserting 15, 6, 23, 4, 7, 20, 50 gives inorder [4, 6, 7, 15, 20, 23, 50] and
`search(20)` returns `found = true` with path [15, 23, 20]. -/
theorem inserts_give_ascending_inorder (vs : List Int) (h : vs.Nodup) :
    List.Pairwise (· < ·) (buildTree vs).inorder ∧
    (buildTree vs).inorder.Perm vs ∧
    (buildTree [15, 6, 23, 4, 7, 20, 50]).inorder = [4, 6, 7, 15, 20, 23, 50] ∧
    (buildTree [15, 6, 23, 4, 7, 20, 50]).search 20 = (true, [15, 23, 20]) := by
  have hs := Tree.inorder_sorted (buildTree_isBST vs)
  refine ⟨hs, ?_, by decide, by decide⟩
  refine List.perm_of_nodup_nodup_toFinset_eq (List.Pairwise.imp ?_ hs) h ?_
  . exact fun hab => ne_of_lt hab
  . ext a
    simp only [List.mem_toFinset]
    rw [Tree.mem_inorder, mem_buildTree]

/-- Witness for C3 at the insert sequence [10, 5, 20]. -/
theorem inserts_give_ascending_inorder_witness :
    ([10, 5, 20] : List Int).Nodup ∧
    (List.Pairwise (· < ·) (buildTree [10, 5, 20]).inorder ∧
     (buildTree [10, 5, 20]).inorder.Perm [10, 5, 20] ∧
     (buildTree [15, 6, 23, 4, 7, 20, 50]).inorder = [4, 6, 7, 15, 20, 23, 50] ∧
     (buildTree [15, 6, 23, 4, 7, 20, 50]).search 20 = (true, [15, 23, 20])) :=
  ⟨by decide, inserts_give_ascending_inorder [10, 5, 20] (by decide)⟩

/-!
Successor-descent characterization for the two-children removal case (C2).
-/

theorem Tree.removeMin_spine :
    ∀ (a : Tree) (x : Int) (r : Tree),
      (Tree.removeMin a x r).1 = (Tree.node a x r).leftSpine ∧
      some (Tree.removeMin a x r).2.1 = (Tree.node a x r).leftmostVal ∧
      (Tree.removeMin a x r).2.2 = (Tree.node a x r).exciseLeftmost
  | .leaf, x, r => by
      simp [Tree.removeMin, Tree.leftSpine, Tree.leftmostVal, Tree.exciseLeftmost]
  | .node a1 a2 a3, x, r => by
      have ih := Tree.removeMin_spine a1 a2 a3
      rw [Tree.removeMin_node]
      exact ⟨by rw [ih.1]; simp [Tree.leftSpine],
        by rw [ih.2.1]; simp [Tree.leftmostVal],
        by rw [ih.2.2]; simp [Tree.exciseLeftmost]⟩

/-- C2: removing a node with two children locates the in-order successor (the
leftmost node of the right subtree), appends each node visited during that
descent to the returned path, copies the successor's value into the removed
node's position, and excises the successor node, so the successor's value
remains present; concretely, `remove(15)` on the tree built from
15, 6, 23, 4, 7, 20, 50 returns `success = true` and leaves the root value 20. -/
theorem remove_two_children_spec (l r : Tree) (x m : Int)
    (hl : l ≠ Tree.leaf) (hr : r ≠ Tree.leaf) (hm : r.leftmostVal = some m) :
    (Tree.node l x r).remove x =
      (true, x :: r.leftSpine, Tree.node l m r.exciseLeftmost) ∧
    (((Tree.node l x r).remove x).2.2).mem m = true ∧
    ((buildTree [15, 6, 23, 4, 7, 20, 50]).remove 15).1 = true ∧
    ((buildTree [15, 6, 23, 4, 7, 20, 50]).remove 15).2.2.rootValue = some 20 := by
  obtain ⟨a, b, c, rfl⟩ : ∃ a b c, l = Tree.node a b c := by
    cases l with
    | leaf => exact absurd rfl hl
    | node a b c => exact ⟨a, b, c, rfl⟩
  obtain ⟨d, e, f, rfl⟩ : ∃ d e f, r = Tree.node d e f := by
    cases r with
    | leaf => exact absurd rfl hr
    | node d e f => exact ⟨d, e, f, rfl⟩
  have hs := Tree.removeMin_spine d e f
  have hval : (Tree.removeMin d e f).2.1 = m := by
    have := hs.2.1.trans hm
    exact Option.some_injective Int this
  have heq : (Tree.node (Tree.node a b c) x (Tree.node d e f)).remove x =
      (true, x :: (Tree.node d e f).leftSpine,
        Tree.node (Tree.node a b c) m (Tree.node d e f).exciseLeftmost) := by
    rw [Tree.remove_two_children, hs.1, hval, hs.2.2]
  refine ⟨heq, ?_, by decide, by decide⟩
  rw [heq]
  exact Tree.mem_node_iff.mpr (Or.inl rfl)

/-- Witness for C2 at the tree `node (node leaf 1 leaf) 2 (node leaf 3 leaf)`. -/
theorem remove_two_children_spec_witness :
    (Tree.node Tree.leaf 1 Tree.leaf ≠ Tree.leaf ∧
     Tree.node Tree.leaf 3 Tree.leaf ≠ Tree.leaf ∧
     (Tree.node Tree.leaf 3 Tree.leaf).leftmostVal = some 3) ∧
    ((Tree.node (Tree.node Tree.leaf 1 Tree.leaf) 2 (Tree.node Tree.leaf 3 Tree.leaf)).remove 2 =
      (true, 2 :: (Tree.node Tree.leaf 3 Tree.leaf).leftSpine,
        Tree.node (Tree.node Tree.leaf 1 Tree.leaf) 3
          (Tree.node Tree.leaf 3 Tree.leaf).exciseLeftmost) ∧
     (((Tree.node (Tree.node Tree.leaf 1 Tree.leaf) 2
          (Tree.node Tree.leaf 3 Tree.leaf)).remove 2).2.2).mem 3 = true ∧
     ((buildTree [15, 6, 23, 4, 7, 20, 50]).remove 15).1 = true ∧
     ((buildTree [15, 6, 23, 4, 7, 20, 50]).remove 15).2.2.rootValue = some 20) :=
  ⟨⟨by decide, by decide, by decide⟩,
   remove_two_children_spec (Tree.node Tree.leaf 1 Tree.leaf)
     (Tree.node Tree.leaf 3 Tree.leaf) 2 3 (by decide) (by decide) (by decide)⟩

/-!
Spine characterization of `findMin` / `findMax` (C8).
-/

theorem Tree.findMin_eq :
    ∀ {t : Tree}, t ≠ Tree.leaf →
      (t.findMin).2.1 = t.leftSpine ∧ (t.findMin).1 = t.leftmostVal
  | .leaf, h => absurd rfl h
  | .node .leaf x r, _ => by
      simp [Tree.findMin, Tree.leftSpine, Tree.leftmostVal]
  | .node (.node a b c) x r, _ => by
      have ih : (Tree.node a b c).findMin.2.1 = (Tree.node a b c).leftSpine ∧
          (Tree.node a b c).findMin.1 = (Tree.node a b c).leftmostVal :=
        Tree.findMin_eq (by simp)
      refine ⟨?_, ?_⟩
      . show x :: (Tree.node a b c).findMin.2.1 = (Tree.node (Tree.node a b c) x r).leftSpine
        rw [ih.1]
        simp [Tree.leftSpine]
      . show (Tree.node a b c).findMin.1 = (Tree.node (Tree.node a b c) x r).leftmostVal
        rw [ih.2]
        simp [Tree.leftmostVal]

theorem Tree.findMax_eq :
    ∀ {t : Tree}, t ≠ Tree.leaf →
      (t.findMax).2.1 = t.rightSpine ∧ (t.findMax).1 = t.rightmostVal
  | .leaf, h => absurd rfl h
  | .node l x .leaf, _ => by
      simp [Tree.findMax, Tree.rightSpine, Tree.rightmostVal]
  | .node l x (.node a b c), _ => by
      have ih : (Tree.node a b c).findMax.2.1 = (Tree.node a b c).rightSpine ∧
          (Tree.node a b c).findMax.1 = (Tree.node a b c).rightmostVal :=
        Tree.findMax_eq (by simp)
      refine ⟨?_, ?_⟩
      . show x :: (Tree.node a b c).findMax.2.1 = (Tree.node l x (Tree.node a b c)).rightSpine
        rw [ih.1]
        simp [Tree.rightSpine]
      . show (Tree.node a b c).findMax.1 = (Tree.node l x (Tree.node a b c)).rightmostVal
        rw [ih.2]
        simp [Tree.rightmostVal]

theorem Tree.leftSpine_getLast :
    ∀ {t : Tree}, t ≠ Tree.leaf → t.leftSpine.getLast? = t.leftmostVal
  | .leaf, h => absurd rfl h
  | .node .leaf x r, _ => by simp [Tree.leftSpine, Tree.leftmostVal]
  | .node (.node a b c) x r, _ => by
      have ih : (Tree.node a b c).leftSpine.getLast? = (Tree.node a b c).leftmostVal :=
        Tree.leftSpine_getLast (by simp)
      simp only [Tree.leftSpine, Tree.leftmostVal] at ih ⊢
      rw [← ih, List.getLast?_cons_cons]

theorem Tree.rightSpine_getLast :
    ∀ {t : Tree}, t ≠ Tree.leaf → t.rightSpine.getLast? = t.rightmostVal
  | .leaf, h => absurd rfl h
  | .node l x .leaf, _ => by simp [Tree.rightSpine, Tree.rightmostVal]
  | .node l x (.node a b c), _ => by
      have ih : (Tree.node a b c).rightSpine.getLast? = (Tree.node a b c).rightmostVal :=
        Tree.rightSpine_getLast (by simp)
      simp only [Tree.rightSpine, Tree.rightmostVal] at ih ⊢
      rw [← ih, List.getLast?_cons_cons]

theorem Tree.leftmostVal_mem :
    ∀ {t : Tree} {m : Int}, t.leftmostVal = some m → t.mem m = true
  | .node .leaf x r, m, h => by
      simp only [Tree.leftmostVal, Option.some_inj] at h
      exact Tree.mem_node_iff.mpr (Or.inl h.symm)
  | .node (.node a b c) x r, m, h => by
      simp only [Tree.leftmostVal] at h
      exact Tree.mem_node_iff.mpr (Or.inr (Or.inl (Tree.leftmostVal_mem h)))

theorem Tree.rightmostVal_mem :
    ∀ {t : Tree} {m : Int}, t.rightmostVal = some m → t.mem m = true
  | .node l x .leaf, m, h => by
      simp only [Tree.rightmostVal, Option.some_inj] at h
      exact Tree.mem_node_iff.mpr (Or.inl h.symm)
  | .node l x (.node a b c), m, h => by
      simp only [Tree.rightmostVal] at h
      exact Tree.mem_node_iff.mpr (Or.inr (Or.inr (Tree.rightmostVal_mem h)))

theorem Tree.leftmostVal_min :
    ∀ {t : Tree} {m : Int}, t.isBST = true → t.leftmostVal = some m →
      ∀ w, t.mem w = true → m ≤ w
  | .node .leaf x r, m, hb, h, w, hw => by
      rw [Tree.isBST_node_iff] at hb
      simp only [Tree.leftmostVal, Option.some_inj] at h
      subst h
      rcases Tree.mem_node_iff.mp hw with rfl | hh | hh
      . exact le_refl w
      . simp [Tree.mem] at hh
      . exact le_of_lt (by simpa using Tree.all_mem hb.2.1 hh)
  | .node (.node a b c) x r, m, hb, h, w, hw => by
      rw [Tree.isBST_node_iff] at hb
      simp only [Tree.leftmostVal] at h
      have hmx : m < x := by
        simpa using Tree.all_mem hb.1 (Tree.leftmostVal_mem h)
      rcases Tree.mem_node_iff.mp hw with rfl | hh | hh
      . exact le_of_lt hmx
      . exact Tree.leftmostVal_min hb.2.2.1 h w hh
      . have hxw : x < w := by simpa using Tree.all_mem hb.2.1 hh
        exact le_of_lt (lt_trans hmx hxw)

theorem Tree.rightmostVal_max :
    ∀ {t : Tree} {m : Int}, t.isBST = true → t.rightmostVal = some m →
      ∀ w, t.mem w = true → w ≤ m
  | .node l x .leaf, m, hb, h, w, hw => by
      rw [Tree.isBST_node_iff] at hb
      simp only [Tree.rightmostVal, Option.some_inj] at h
      subst h
      rcases Tree.mem_node_iff.mp hw with rfl | hh | hh
      . exact le_refl w
      . exact le_of_lt (by simpa using Tree.all_mem hb.1 hh)
      . simp [Tree.mem] at hh
  | .node l x (.node a b c), m, hb, h, w, hw => by
      rw [Tree.isBST_node_iff] at hb
      simp only [Tree.rightmostVal] at h
      have hxm : x < m := by
        simpa using Tree.all_mem hb.2.1 (Tree.rightmostVal_mem h)
      rcases Tree.mem_node_iff.mp hw with rfl | hh | hh
      . exact le_of_lt hxm
      . have hwx : w < x := by simpa using Tree.all_mem hb.1 hh
        exact le_of_lt (lt_trans hwx hxm)
      . exact Tree.rightmostVal_max hb.2.2.2 h w hh

/-- C8: on the empty tree `findMin`/`findMax` return `value = null` with an
empty path and message "Tree is empty"; on a non-empty tree the path is the
strict left (resp. right) spine from the root, its final value — also returned
as the result value — is the minimum (resp. maximum) of all values. -/
theorem findMin_findMax_spec (t : Tree) (h : t.isBST = true) :
    Tree.leaf.findMin = (none, [], "Tree is empty") ∧
    Tree.leaf.findMax = (none, [], "Tree is empty") ∧
    (t ≠ Tree.leaf →
      (t.findMin).2.1 = t.leftSpine ∧ (t.findMin).1 = t.leftmostVal ∧
      t.leftSpine.getLast? = t.leftmostVal ∧
      (∀ m, t.leftmostVal = some m →
        t.mem m = true ∧ ∀ w, t.mem w = true → m ≤ w)) ∧
    (t ≠ Tree.leaf →
      (t.findMax).2.1 = t.rightSpine ∧ (t.findMax).1 = t.rightmostVal ∧
      t.rightSpine.getLast? = t.rightmostVal ∧
      (∀ m, t.rightmostVal = some m →
        t.mem m = true ∧ ∀ w, t.mem w = true → w ≤ m)) := by
  refine ⟨rfl, rfl, fun hne => ?_, fun hne => ?_⟩
  . refine ⟨(Tree.findMin_eq hne).1, (Tree.findMin_eq hne).2,
      Tree.leftSpine_getLast hne, fun m hm => ?_⟩
    exact ⟨Tree.leftmostVal_mem hm, Tree.leftmostVal_min h hm⟩
  . refine ⟨(Tree.findMax_eq hne).1, (Tree.findMax_eq hne).2,
      Tree.rightSpine_getLast hne, fun m hm => ?_⟩
    exact ⟨Tree.rightmostVal_mem hm, Tree.rightmostVal_max h hm⟩

/-- Witness for C8 at the tree built from [2, 1, 3]. -/
theorem findMin_findMax_spec_witness :
    (buildTree [2, 1, 3]).isBST = true ∧
    (Tree.leaf.findMin = (none, [], "Tree is empty") ∧
     Tree.leaf.findMax = (none, [], "Tree is empty") ∧
     (buildTree [2, 1, 3] ≠ Tree.leaf →
       ((buildTree [2, 1, 3]).findMin).2.1 = (buildTree [2, 1, 3]).leftSpine ∧
       ((buildTree [2, 1, 3]).findMin).1 = (buildTree [2, 1, 3]).leftmostVal ∧
       (buildTree [2, 1, 3]).leftSpine.getLast? = (buildTree [2, 1, 3]).leftmostVal ∧
       (∀ m, (buildTree [2, 1, 3]).leftmostVal = some m →
         (buildTree [2, 1, 3]).mem m = true ∧
         ∀ w, (buildTree [2, 1, 3]).mem w = true → m ≤ w)) ∧
     (buildTree [2, 1, 3] ≠ Tree.leaf →
       ((buildTree [2, 1, 3]).findMax).2.1 = (buildTree [2, 1, 3]).rightSpine ∧
       ((buildTree [2, 1, 3]).findMax).1 = (buildTree [2, 1, 3]).rightmostVal ∧
       (buildTree [2, 1, 3]).rightSpine.getLast? = (buildTree [2, 1, 3]).rightmostVal ∧
       (∀ m, (buildTree [2, 1, 3]).rightmostVal = some m →
         (buildTree [2, 1, 3]).mem m = true ∧
         ∀ w, (buildTree [2, 1, 3]).mem w = true → w ≤ m))) :=
  ⟨by decide, findMin_findMax_spec (buildTree [2, 1, 3]) (by decide)⟩

/-!
Event-count lemmas for the detailed traversals (C7).
-/

theorem stepCount_nil (v : Int) (a : Action) : stepCount [] v a = 0 := rfl

theorem stepCount_cons (s : Step) (l : List Step) (v : Int) (a : Action) :
    stepCount (s :: l) v a =
      stepCount l v a + (if s.value = v ∧ s.action = a then 1 else 0) := by
  simp [stepCount, List.countP_cons]

theorem stepCount_append (l₁ l₂ : List Step) (v : Int) (a : Action) :
    stepCount (l₁ ++ l₂) v a = stepCount l₁ v a + stepCount l₂ v a := by
  simp [stepCount, List.countP_append]

theorem mem_node_of_ne {l r : Tree} {x v : Int} (h : v ≠ x) :
    (Tree.node l x r).mem v = (l.mem v || r.mem v) := by
  simp [Tree.mem, h]

theorem not_mem_right_of_mem_left {l r : Tree} {x v : Int}
    (hla : l.all (fun y => decide (y < x)) = true)
    (hra : r.all (fun y => decide (x < y)) = true)
    (hl : l.mem v = true) : r.mem v = false := by
  have hvx : v < x := by simpa using Tree.all_mem hla hl
  exact Tree.not_mem_of_all hra (by simp [not_lt.mpr (le_of_lt hvx)])

theorem stepCount_inorderDetailed {v : Int} {a : Action} :
    ∀ {t : Tree}, t.isBST = true →
      stepCount t.inorderDetailed v a = if t.mem v = true then 1 else 0
  | .leaf, _ => by simp [Tree.inorderDetailed, stepCount, Tree.mem]
  | .node l x r, h => by
      rw [Tree.isBST_node_iff] at h
      obtain ⟨hla, hra, hlb, hrb⟩ := h
      have ihl : stepCount l.inorderDetailed v a = if l.mem v = true then 1 else 0 :=
        stepCount_inorderDetailed hlb
      have ihr : stepCount r.inorderDetailed v a = if r.mem v = true then 1 else 0 :=
        stepCount_inorderDetailed hrb
      simp only [Tree.inorderDetailed]
      rw [stepCount_cons, stepCount_append, stepCount_cons, stepCount_append,
        stepCount_cons, stepCount_nil, ihl, ihr]
      by_cases hvx : v = x
      . subst hvx
        have hl0 : l.mem v = false := Tree.not_mem_of_all hla (by simp)
        have hr0 : r.mem v = false := Tree.not_mem_of_all hra (by simp)
        have hmem : (Tree.node l v r).mem v = true :=
          Tree.mem_node_iff.mpr (Or.inl rfl)
        rw [hl0, hr0, hmem]
        cases a <;> simp
      . rw [mem_node_of_ne hvx]
        have hx0 : ¬(x = v) := fun hh => hvx hh.symm
        cases hl : l.mem v with
        | true =>
            rw [not_mem_right_of_mem_left hla hra hl]
            simp [hx0]
        | false =>
            cases hr : r.mem v <;> simp [hx0]

theorem stepCount_preorderDetailed {v : Int} {a : Action} :
    ∀ {t : Tree}, t.isBST = true →
      stepCount t.preorderDetailed v a = if t.mem v = true then 1 else 0
  | .leaf, _ => by simp [Tree.preorderDetailed, stepCount, Tree.mem]
  | .node l x r, h => by
      rw [Tree.isBST_node_iff] at h
      obtain ⟨hla, hra, hlb, hrb⟩ := h
      have ihl : stepCount l.preorderDetailed v a = if l.mem v = true then 1 else 0 :=
        stepCount_preorderDetailed hlb
      have ihr : stepCount r.preorderDetailed v a = if r.mem v = true then 1 else 0 :=
        stepCount_preorderDetailed hrb
      simp only [Tree.preorderDetailed]
      rw [stepCount_cons, stepCount_cons, stepCount_append, stepCount_append,
        stepCount_cons, stepCount_nil, ihl, ihr]
      by_cases hvx : v = x
      . subst hvx
        have hl0 : l.mem v = false := Tree.not_mem_of_all hla (by simp)
        have hr0 : r.mem v = false := Tree.not_mem_of_all hra (by simp)
        have hmem : (Tree.node l v r).mem v = true :=
          Tree.mem_node_iff.mpr (Or.inl rfl)
        rw [hl0, hr0, hmem]
        cases a <;> simp
      . rw [mem_node_of_ne hvx]
        have hx0 : ¬(x = v) := fun hh => hvx hh.symm
        cases hl : l.mem v with
        | true =>
            rw [not_mem_right_of_mem_left hla hra hl]
            simp [hx0]
        | false =>
            cases hr : r.mem v <;> simp [hx0]

theorem stepCount_postorderDetailed {v : Int} {a : Action} :
    ∀ {t : Tree}, t.isBST = true →
      stepCount t.postorderDetailed v a = if t.mem v = true then 1 else 0
  | .leaf, _ => by simp [Tree.postorderDetailed, stepCount, Tree.mem]
  | .node l x r, h => by
      rw [Tree.isBST_node_iff] at h
      obtain ⟨hla, hra, hlb, hrb⟩ := h
      have ihl : stepCount l.postorderDetailed v a = if l.mem v = true then 1 else 0 :=
        stepCount_postorderDetailed hlb
      have ihr : stepCount r.postorderDetailed v a = if r.mem v = true then 1 else 0 :=
        stepCount_postorderDetailed hrb
      simp only [Tree.postorderDetailed]
      rw [stepCount_cons, stepCount_append, stepCount_append, stepCount_cons,
        stepCount_cons, stepCount_nil, ihl, ihr]
      by_cases hvx : v = x
      . subst hvx
        have hl0 : l.mem v = false := Tree.not_mem_of_all hla (by simp)
        have hr0 : r.mem v = false := Tree.not_mem_of_all hra (by simp)
        have hmem : (Tree.node l v r).mem v = true :=
          Tree.mem_node_iff.mpr (Or.inl rfl)
        rw [hl0, hr0, hmem]
        cases a <;> simp
      . rw [mem_node_of_ne hvx]
        have hx0 : ¬(x = v) := fun hh => hvx hh.symm
        cases hl : l.mem v with
        | true =>
            rw [not_mem_right_of_mem_left hla hra hl]
            simp [hx0]
        | false =>
            cases hr : r.mem v <;> simp [hx0]

/-!
Stack-depth lemmas for the detailed traversals (C7).
-/

theorem enter_eq_exit_inorder :
    ∀ (t : Tree), enterCount t.inorderDetailed = exitCount t.inorderDetailed
  | .leaf => rfl
  | .node l x r => by
      have ihl := enter_eq_exit_inorder l
      have ihr := enter_eq_exit_inorder r
      simp only [enterCount, exitCount] at ihl ihr ⊢
      simp only [Tree.inorderDetailed, List.countP_cons, List.countP_append]
      simp
      omega

theorem enter_eq_exit_preorder :
    ∀ (t : Tree), enterCount t.preorderDetailed = exitCount t.preorderDetailed
  | .leaf => rfl
  | .node l x r => by
      have ihl := enter_eq_exit_preorder l
      have ihr := enter_eq_exit_preorder r
      simp only [enterCount, exitCount] at ihl ihr ⊢
      simp only [Tree.preorderDetailed, List.countP_cons, List.countP_append]
      simp
      omega

theorem enter_eq_exit_postorder :
    ∀ (t : Tree), enterCount t.postorderDetailed = exitCount t.postorderDetailed
  | .leaf => rfl
  | .node l x r => by
      have ihl := enter_eq_exit_postorder l
      have ihr := enter_eq_exit_postorder r
      simp only [enterCount, exitCount] at ihl ihr ⊢
      simp only [Tree.postorderDetailed, List.countP_cons, List.countP_append]
      simp
      omega

theorem prefixSafe_nil : prefixSafe [] := by
  intro n
  simp [enterCount, exitCount]

theorem prefixSafe_append {A B : List Step} (hA : prefixSafe A) (hB : prefixSafe B) :
    prefixSafe (A ++ B) := by
  intro n
  rw [List.take_append_eq_append_take]
  have h1 := hA n
  have h2 := hB (n - A.length)
  simp only [enterCount, exitCount, List.countP_append] at h1 h2 ⊢
  omega

theorem prefixSafe_cons_visit {L : List Step} {x : Int} (hL : prefixSafe L) :
    prefixSafe (⟨x, Action.visit⟩ :: L) := by
  intro n
  cases n with
  | zero => simp [enterCount, exitCount]
  | succ m =>
      rw [List.take_succ_cons]
      have h1 := hL m
      simp only [enterCount, exitCount, List.countP_cons] at h1 ⊢
      simpa using h1

theorem prefixSafe_wrap {M : List Step} {x y : Int} (hM : prefixSafe M) :
    prefixSafe (⟨x, Action.enter⟩ :: (M ++ [⟨y, Action.exit⟩])) := by
  intro n
  cases n with
  | zero => simp [enterCount, exitCount]
  | succ m =>
      rw [List.take_succ_cons, List.take_append_eq_append_take]
      have h1 := hM m
      have hlen : ([(⟨y, Action.exit⟩ : Step)].take (m - M.length)).length ≤ 1 := by
        cases m - M.length with
        | zero => simp
        | succ k => simp
      have hexit : exitCount ([(⟨y, Action.exit⟩ : Step)].take (m - M.length)) ≤ 1 := by
        simp only [exitCount]
        exact le_trans (List.countP_le_length _) hlen
      simp only [enterCount, exitCount, List.countP_cons, List.countP_append] at h1 hexit ⊢
      simp at *
      omega

theorem prefixSafe_inorderDetailed : ∀ (t : Tree), prefixSafe t.inorderDetailed
  | .leaf => prefixSafe_nil
  | .node l x r => by
      have ihl := prefixSafe_inorderDetailed l
      have ihr := prefixSafe_inorderDetailed r
      have hM : prefixSafe (l.inorderDetailed ++ ⟨x, Action.visit⟩ :: r.inorderDetailed) :=
        prefixSafe_append ihl (prefixSafe_cons_visit ihr)
      have hshape : Tree.inorderDetailed (Tree.node l x r) =
          ⟨x, Action.enter⟩ ::
            ((l.inorderDetailed ++ ⟨x, Action.visit⟩ :: r.inorderDetailed) ++
              [⟨x, Action.exit⟩]) := by
        simp [Tree.inorderDetailed]
      rw [hshape]
      exact prefixSafe_wrap hM

theorem prefixSafe_preorderDetailed : ∀ (t : Tree), prefixSafe t.preorderDetailed
  | .leaf => prefixSafe_nil
  | .node l x r => by
      have ihl := prefixSafe_preorderDetailed l
      have ihr := prefixSafe_preorderDetailed r
      have hM : prefixSafe (⟨x, Action.visit⟩ :: (l.preorderDetailed ++ r.preorderDetailed)) :=
        prefixSafe_cons_visit (prefixSafe_append ihl ihr)
      have hshape : Tree.preorderDetailed (Tree.node l x r) =
          ⟨x, Action.enter⟩ ::
            ((⟨x, Action.visit⟩ :: (l.preorderDetailed ++ r.preorderDetailed)) ++
              [⟨x, Action.exit⟩]) := by
        simp [Tree.preorderDetailed]
      rw [hshape]
      exact prefixSafe_wrap hM

theorem prefixSafe_postorderDetailed : ∀ (t : Tree), prefixSafe t.postorderDetailed
  | .leaf => prefixSafe_nil
  | .node l x r => by
      have ihl := prefixSafe_postorderDetailed l
      have ihr := prefixSafe_postorderDetailed r
      have hM : prefixSafe
          (l.postorderDetailed ++ (r.postorderDetailed ++ [⟨x, Action.visit⟩])) :=
        prefixSafe_append ihl
          (prefixSafe_append ihr (prefixSafe_cons_visit prefixSafe_nil))
      have hshape : Tree.postorderDetailed (Tree.node l x r) =
          ⟨x, Action.enter⟩ ::
            ((l.postorderDetailed ++ (r.postorderDetailed ++ [⟨x, Action.visit⟩])) ++
              [⟨x, Action.exit⟩]) := by
        simp [Tree.postorderDetailed]
      rw [hshape]
      exact prefixSafe_wrap hM

/-- C7: in every detailed traversal of a BST, every node value appears in
exactly one enter, one visit and one exit event; on every prefix of the event
log the number of enter events is at least the number of exit events, and the
two counts are equal on the full log. -/
theorem detailed_traversals_events (t : Tree) (h : t.isBST = true) :
    (∀ v, t.mem v = true →
      (∀ a, stepCount t.inorderDetailed v a = 1) ∧
      (∀ a, stepCount t.preorderDetailed v a = 1) ∧
      (∀ a, stepCount t.postorderDetailed v a = 1)) ∧
    (∀ n, exitCount (t.inorderDetailed.take n) ≤ enterCount (t.inorderDetailed.take n)) ∧
    (∀ n, exitCount (t.preorderDetailed.take n) ≤ enterCount (t.preorderDetailed.take n)) ∧
    (∀ n, exitCount (t.postorderDetailed.take n) ≤ enterCount (t.postorderDetailed.take n)) ∧
    enterCount t.inorderDetailed = exitCount t.inorderDetailed ∧
    enterCount t.preorderDetailed = exitCount t.preorderDetailed ∧
    enterCount t.postorderDetailed = exitCount t.postorderDetailed := by
  refine ⟨fun v hv => ⟨fun a => ?_, fun a => ?_, fun a => ?_⟩,
    prefixSafe_inorderDetailed t, prefixSafe_preorderDetailed t,
    prefixSafe_postorderDetailed t, enter_eq_exit_inorder t,
    enter_eq_exit_preorder t, enter_eq_exit_postorder t⟩
  . rw [stepCount_inorderDetailed h, if_pos hv]
  . rw [stepCount_preorderDetailed h, if_pos hv]
  . rw [stepCount_postorderDetailed h, if_pos hv]

/-- Witness for C7 at the tree built from [2, 1, 3]. -/
theorem detailed_traversals_events_witness :
    (buildTree [2, 1, 3]).isBST = true ∧
    ((∀ v, (buildTree [2, 1, 3]).mem v = true →
      (∀ a, stepCount (buildTree [2, 1, 3]).inorderDetailed v a = 1) ∧
      (∀ a, stepCount (buildTree [2, 1, 3]).preorderDetailed v a = 1) ∧
      (∀ a, stepCount (buildTree [2, 1, 3]).postorderDetailed v a = 1)) ∧
    (∀ n, exitCount ((buildTree [2, 1, 3]).inorderDetailed.take n) ≤
      enterCount ((buildTree [2, 1, 3]).inorderDetailed.take n)) ∧
    (∀ n, exitCount ((buildTree [2, 1, 3]).preorderDetailed.take n) ≤
      enterCount ((buildTree [2, 1, 3]).preorderDetailed.take n)) ∧
    (∀ n, exitCount ((buildTree [2, 1, 3]).postorderDetailed.take n) ≤
      enterCount ((buildTree [2, 1, 3]).postorderDetailed.take n)) ∧
    enterCount (buildTree [2, 1, 3]).inorderDetailed =
      exitCount (buildTree [2, 1, 3]).inorderDetailed ∧
    enterCount (buildTree [2, 1, 3]).preorderDetailed =
      exitCount (buildTree [2, 1, 3]).preorderDetailed ∧
    enterCount (buildTree [2, 1, 3]).postorderDetailed =
      exitCount (buildTree [2, 1, 3]).postorderDetailed) :=
  ⟨by decide, detailed_traversals_events (buildTree [2, 1, 3]) (by decide)⟩

/-!
Frame-generator lemmas (C5, C6, C9, C10). The cons-unfolding equations below
hold definitionally and give precise control over match reduction.
-/

theorem pathFramesLoop_cons {α : Type} (getPos : Int → Option α) (v : Int)
    (rest visited : List Int) (edges : List (AnimatedEdge α)) :
    pathFramesLoop getPos (v :: rest) visited edges =
      match getPos v with
      | none => pathFramesLoop getPos rest visited edges
      | some pos =>
          let visited2 := visited ++ [v]
          let arrive : Frame α := ⟨some v, some pos, visited2, [], edges⟩
          match rest with
          | [] =>
              let res := pathFramesLoop getPos rest visited2 edges
              (arrive :: res.1, res.2)
          | next :: _ =>
              match getPos next with
              | none =>
                  let res := pathFramesLoop getPos rest visited2 edges
                  (arrive :: res.1, res.2)
              | some nextPos =>
                  let edges2 := edges ++ [⟨⟨pos, v⟩, ⟨nextPos, next⟩⟩]
                  let grow : Frame α := ⟨some v, some pos, visited2, [], edges2⟩
                  let res := pathFramesLoop getPos rest visited2 edges2
                  (arrive :: grow :: res.1, res.2) := rfl

theorem pathFramesSpecGo_cons {α : Type} (getPos : Int → Option α)
    (v : Int) (next : Option Int) (rest : List (Int × Option Int))
    (visited : List Int) (edges : List (AnimatedEdge α)) :
    pathFramesSpecGo getPos ((v, next) :: rest) visited edges =
      (let step := pathStepSpec getPos (visited, edges) v next
       let res := pathFramesSpecGo getPos rest step.2.1 step.2.2
       (step.1 ++ res.1, res.2)) := rfl

theorem travFramesLoop_cons {α : Type} (getPos : Int → Option α) (s : Step)
    (rest : List Step) (visited stack : List Int) :
    travFramesLoop getPos (s :: rest) visited stack =
      match getPos s.value with
      | none => travFramesLoop getPos rest visited stack
      | some pos =>
          match s.action with
          | .enter =>
              let stack2 := stack ++ [s.value]
              ⟨some s.value, some pos, visited, stack2, []⟩ ::
                travFramesLoop getPos rest visited stack2
          | .visit =>
              let visited2 := visited ++ [s.value]
              ⟨some s.value, some pos, visited2, stack, []⟩ ::
                travFramesLoop getPos rest visited2 stack
          | .exit =>
              let stack2 := stack.filter (fun w => w ≠ s.value)
              let hp : Option Int × Option α :=
                match stack2.getLast? with
                | some p => if p = 0 then (none, none) else (some p, getPos p)
                | none => (none, none)
              ⟨hp.1, hp.2, visited, stack2, []⟩ ::
                travFramesLoop getPos rest visited stack2 := rfl

theorem travFramesSpecLoop_cons {α : Type} (getPos : Int → Option α) (s : Step)
    (rest : List Step) (visited stack : List Int) :
    travFramesSpecLoop getPos (s :: rest) visited stack =
      match getPos s.value with
      | none => travFramesSpecLoop getPos rest visited stack
      | some pos =>
          match s.action with
          | .enter =>
              let stack2 := stack ++ [s.value]
              ⟨some s.value, some pos, visited, stack2, []⟩ ::
                travFramesSpecLoop getPos rest visited stack2
          | .visit =>
              let visited2 := visited ++ [s.value]
              ⟨some s.value, some pos, visited2, stack, []⟩ ::
                travFramesSpecLoop getPos rest visited2 stack
          | .exit =>
              let stack2 := stack.filter (fun w => w ≠ s.value)
              let hp : Option Int × Option α :=
                match stack2.getLast? with
                | some p => (some p, getPos p)
                | none => (none, none)
              ⟨hp.1, hp.2, visited, stack2, []⟩ ::
                travFramesSpecLoop getPos rest visited stack2 := rfl

theorem travFramesLoop_no_edges {α : Type} (getPos : Int → Option α) :
    ∀ (steps : List Step) (visited stack : List Int),
      (travFramesLoop getPos steps visited stack).all
        (fun f => f.connectedEdges.isEmpty) = true
  | [], visited, stack => by simp [travFramesLoop]
  | s :: rest, visited, stack => by
      rw [travFramesLoop_cons]
      cases hg : getPos s.value with
      | none =>
          simp only [hg]
          exact travFramesLoop_no_edges getPos rest visited stack
      | some pos =>
          simp only [hg]
          cases s.action with
          | enter =>
              simpa using travFramesLoop_no_edges getPos rest visited (stack ++ [s.value])
          | visit =>
              simpa using travFramesLoop_no_edges getPos rest (visited ++ [s.value]) stack
          | exit =>
              simpa using travFramesLoop_no_edges getPos rest visited
                (stack.filter (fun w => w ≠ s.value))

/-- C9: every frame emitted by the traversal frame generator — the initial
frame, every enter, visit and exit frame, and the trailing completion frame —
has an empty connected-edges list; traversal animations never mark an edge as
connected. -/
theorem traversal_frames_have_no_edges {α : Type} (getPos : Int → Option α)
    (steps : List Step) :
    (generateTraversalFrames getPos steps).all
      (fun f => f.connectedEdges.isEmpty) = true := by
  simpa [generateTraversalFrames] using travFramesLoop_no_edges getPos steps [] []

theorem pathFramesLoop_no_pathNodes {α : Type} (getPos : Int → Option α) :
    ∀ (path visited : List Int) (edges : List (AnimatedEdge α)),
      (pathFramesLoop getPos path visited edges).1.all
        (fun f => f.pathNodes.isEmpty) = true
  | [], visited, edges => rfl
  | v :: rest, visited, edges => by
      rw [pathFramesLoop_cons]
      cases hg : getPos v with
      | none =>
          simp only [hg]
          exact pathFramesLoop_no_pathNodes getPos rest visited edges
      | some pos =>
          simp only [hg]
          cases rest with
          | nil =>
              simpa using pathFramesLoop_no_pathNodes getPos [] (visited ++ [v]) edges
          | cons next rest2 =>
              cases hn : getPos next with
              | none =>
                  simp only [hn]
                  simpa using pathFramesLoop_no_pathNodes getPos (next :: rest2)
                    (visited ++ [v]) edges
              | some npos =>
                  simp only [hn]
                  simpa using pathFramesLoop_no_pathNodes getPos (next :: rest2)
                    (visited ++ [v]) (edges ++ [⟨⟨pos, v⟩, ⟨npos, next⟩⟩])

/-- C10: every frame emitted by the path frame generator (used for insert,
search, remove, findMin and findMax animations) has an empty path-node stack;
only traversal animations populate the in-progress path-node stack. -/
theorem path_frames_have_no_pathNodes {α : Type} (getPos : Int → Option α)
    (path : List Int) (finalHighlight : Option Int) :
    (generatePathFrames getPos path finalHighlight).all
      (fun f => f.pathNodes.isEmpty) = true := by
  simp only [generatePathFrames]
  cases finalHighlight with
  | none => simpa using pathFramesLoop_no_pathNodes getPos path [] []
  | some fh =>
      cases hf : getPos fh with
      | none => simpa [hf] using pathFramesLoop_no_pathNodes getPos path [] []
      | some finalPos => simpa [hf] using pathFramesLoop_no_pathNodes getPos path [] []

theorem pathFramesLoop_eq_spec {α : Type} (getPos : Int → Option α) :
    ∀ (path visited : List Int) (edges : List (AnimatedEdge α)),
      pathFramesLoop getPos path visited edges =
        pathFramesSpecGo getPos (withNext path) visited edges
  | [], visited, edges => rfl
  | v :: rest, visited, edges => by
      rw [pathFramesLoop_cons,
        show withNext (v :: rest) = (v, rest.head?) :: withNext rest from rfl,
        pathFramesSpecGo_cons]
      simp only [pathStepSpec]
      cases hvp : getPos v with
      | none =>
          simp only [hvp]
          simpa using pathFramesLoop_eq_spec getPos rest visited edges
      | some pos =>
          simp only [hvp]
          cases rest with
          | nil =>
              simp [pathFramesLoop, pathFramesSpecGo, withNext]
          | cons next rest2 =>
              simp only [List.head?]
              cases hnp : getPos next with
              | none =>
                  simp only [hnp]
                  simp [pathFramesLoop_eq_spec getPos (next :: rest2)
                    (visited ++ [v]) edges]
              | some npos =>
                  simp only [hnp]
                  simp [pathFramesLoop_eq_spec getPos (next :: rest2)
                    (visited ++ [v]) (edges ++ [⟨⟨pos, v⟩, ⟨npos, next⟩⟩])]

/-- C6: the path frame generator emits an initial blank frame; for each path
value with a coordinate, one frame appending the value to the cumulative
visited list with the pointer/highlight on its coordinate, followed — whenever
a next path value exists and has a coordinate — by a second frame adding the
edge between the two coordinates to the cumulative connected-edges list; path
values without coordinates are skipped without a frame; and a supplied
`finalHighlight` with a coordinate yields one trailing frame highlighting
exactly that value without altering the visited/edge accumulation. This is
expressed as equality with the generator assembled from the specification
text. -/
theorem generatePathFrames_eq_spec {α : Type} (getPos : Int → Option α)
    (path : List Int) (finalHighlight : Option Int) :
    generatePathFrames getPos path finalHighlight =
      generatePathFramesSpec getPos path finalHighlight := by
  simp only [generatePathFrames, generatePathFramesSpec,
    pathFramesLoop_eq_spec getPos path]

theorem mem_of_getLast?_eq {l : List Int} {a : Int} (h : l.getLast? = some a) :
    a ∈ l := by
  rcases List.mem_getLast?_eq_getLast (show a ∈ l.getLast? by simp [h]) with ⟨hne, rfl⟩
  exact List.getLast_mem hne

theorem travFramesLoop_eq_spec {α : Type} (getPos : Int → Option α) :
    ∀ (steps : List Step) (visited stack : List Int),
      (∀ s ∈ steps, s.value ≠ 0) → (∀ w ∈ stack, w ≠ 0) →
      travFramesLoop getPos steps visited stack =
        travFramesSpecLoop getPos steps visited stack
  | [], _, _, _, _ => rfl
  | s :: rest, visited, stack, hs, hst => by
      have hsv : s.value ≠ 0 := hs s (List.mem_cons_self s rest)
      have hrest : ∀ x ∈ rest, x.value ≠ 0 := fun x hx =>
        hs x (List.mem_cons_of_mem s hx)
      rw [travFramesLoop_cons, travFramesSpecLoop_cons]
      cases hg : getPos s.value with
      | none =>
          simp only [hg]
          exact travFramesLoop_eq_spec getPos rest visited stack hrest hst
      | some pos =>
          simp only [hg]
          cases s.action with
          | enter =>
              have hst2 : ∀ w ∈ stack ++ [s.value], w ≠ 0 := by
                intro w hw
                rcases List.mem_append.mp hw with hw | hw
                . exact hst w hw
                . rw [List.mem_singleton.mp hw]; exact hsv
              rw [travFramesLoop_eq_spec getPos rest visited (stack ++ [s.value])
                hrest hst2]
          | visit =>
              rw [travFramesLoop_eq_spec getPos rest (visited ++ [s.value]) stack
                hrest hst]
          | exit =>
              have hst2 : ∀ w ∈ stack.filter (fun w => w ≠ s.value), w ≠ 0 :=
                fun w hw => hst w (List.mem_of_mem_filter hw)
              rw [travFramesLoop_eq_spec getPos rest visited
                (stack.filter (fun w => w ≠ s.value)) hrest hst2]
              cases hlast : (stack.filter (fun w => w ≠ s.value)).getLast? with
              | none => simp only [hlast]
              | some p =>
                  have hp : ¬(p = 0) := hst2 p (mem_of_getLast?_eq hlast)
                  simp only [hlast, if_neg hp]

/-- C5 (amended): for every event log whose values are all nonzero (as the
tree's documented 1–99 value range guarantees) and every coordinate lookup,
the traversal frame generator handles each exit event by removing that value
from the path-node stack and emitting a frame whose pointer/highlight is on
the new stack top when the stack is non-empty and cleared when it is empty,
and emits a trailing completion frame with cleared pointer/highlight, empty
path-node stack, and the visited list as accumulated — expressed as equality
with the generator assembled from the specification text. -/
theorem generateTraversalFrames_eq_spec_of_nonzero {α : Type}
    (getPos : Int → Option α) (steps : List Step)
    (h : ∀ s ∈ steps, s.value ≠ 0) :
    generateTraversalFrames getPos steps =
      generateTraversalFramesSpec getPos steps := by
  simp only [generateTraversalFrames, generateTraversalFramesSpec]
  rw [travFramesLoop_eq_spec getPos steps [] [] h (by simp)]

/-- Witness for the amended C5 at a concrete nonzero event log. -/
theorem generateTraversalFrames_eq_spec_of_nonzero_witness :
    (∀ s ∈ smallSteps, s.value ≠ 0) ∧
    generateTraversalFrames allCoords smallSteps =
      generateTraversalFramesSpec allCoords smallSteps :=
  ⟨by decide, generateTraversalFrames_eq_spec_of_nonzero allCoords smallSteps
    (by decide)⟩

/-- C5 counterexample: on the event log enter 0, enter 1, exit 1 with every
value given a coordinate, the frame emitted for the exit event has the
non-empty path-node stack [0] yet a cleared pointer/highlight — the JS
truthiness test `if (parentId)` treats the stack top value 0 like an empty
stack — so the generator differs from the behaviour the claim describes,
reproduced here by the specification-text generator. -/
theorem traversal_exit_zero_counterexample :
    (generateTraversalFrames allCoords zeroTopSteps).get? 3 =
      some ⟨none, none, [], [0], []⟩ ∧
    (generateTraversalFramesSpec allCoords zeroTopSteps).get? 3 =
      some ⟨some 0, some (0, 0), [], [0], []⟩ ∧
    generateTraversalFrames allCoords zeroTopSteps ≠
      generateTraversalFramesSpec allCoords zeroTopSteps := by
  refine ⟨by decide, by decide, by decide⟩

end BstViz
